import Mathlib

/-!
Shallow embedding of the `Store` component of the `what-was-that` CLI
(`src/store.rs`), together with proofs of the spec's claims about it.

The Rust `Store` holds an in-memory `HashMap<String, String>` and a path to a
backing file.  We model the map as an association list with unique keys
(extensional facts are stated through `lookupKV`, since `HashMap` iteration
order is unspecified), and the backing file by an abstract `FileContent`:
the file is absent, empty, holds a decodable JSON object of string pairs, or
holds non-empty undecodable text.  Filesystem write failure is modelled by an
explicit `writeOk` flag passed to the mutating operations; decoding is total
on the `json` constructor, mirroring the fact that `serde_json::to_string` of
a `HashMap<String, String>` always succeeds and round-trips.
-/

namespace WWT

/-- Kinds of application-level store errors (`StoreErrorKind` in `store.rs`):
the specified key does not exist in the store. -/
inductive StoreErrorKind where
  | KeyNotFound (key : String)
deriving DecidableEq

/-- Store errors (`StoreError` in `store.rs`): an I/O error, a JSON
(de)serialization error, or an application error. The payloads of `Io` and
`Json` (the underlying `std::io::Error` / `serde_json::Error`) carry no
information the claims depend on, so they are dropped here. -/
inductive StoreError where
  | Io
  | Json
  | App (kind : StoreErrorKind)
deriving DecidableEq

/-- Lookup in the association-list model of `HashMap<String, String>`:
the value of the first entry whose key matches, if any. -/
def lookupKV (m : List (String × String)) (key : String) : Option String :=
  match m with
  | [] => none
  | (k, v) :: rest => if k = key then some v else lookupKV rest key

/-- Model of `HashMap::contains_key`. -/
def containsKV (m : List (String × String)) (key : String) : Bool :=
  (lookupKV m key).isSome

/-- Model of `HashMap::insert`: replace the value in place if the key is
present, otherwise append the new entry. -/
def insertKV (m : List (String × String)) (key value : String) :
    List (String × String) :=
  match m with
  | [] => [(key, value)]
  | (k, v) :: rest =>
      if k = key then (key, value) :: rest else (k, v) :: insertKV rest key value

/-- Model of `HashMap::remove`: drop every entry with the given key (on maps
with unique keys this removes the single matching entry, as in Rust). -/
def removeKV (m : List (String × String)) (key : String) :
    List (String × String) :=
  m.filter (fun kv => kv.1 != key)

/-- Content of the backing store file. `absent`: the file does not exist;
`empty`: it exists with empty content; `json obj`: its content decodes as a
JSON object of string-to-string pairs `obj`; `invalid`: its content is
non-empty and fails to decode. -/
inductive FileContent where
  | absent
  | empty
  | json (obj : List (String × String))
  | invalid
deriving DecidableEq

/-- The Store (`struct Store` in `store.rs`): the in-memory map together
with the content of the file at `store_path`. -/
structure Store where
  store : List (String × String)
  file : FileContent
deriving DecidableEq

/-- The loop in `Store::load` that inserts every pair of the decoded object
into the (initially empty) in-memory map. -/
def loadMap (obj : List (String × String)) : List (String × String) :=
  obj.foldl (fun m kv => insertKV m kv.1 kv.2) []

/-- Model of `Store::load`: if the file is absent it is created (so its
content becomes empty); empty content yields the empty map with no parse
attempt; undecodable content fails with the JSON error; a decoded object is
inserted pair by pair into the map. Returns the map and the (possibly
created) file content. -/
def load : FileContent → Except StoreError (List (String × String) × FileContent)
  | .absent => .ok ([], .empty)
  | .empty => .ok ([], .empty)
  | .invalid => .error .Json
  | .json obj => .ok (loadMap obj, .json obj)

/-- Model of `Store::new`: start from an empty map and run `load`. -/
def Store.new (file : FileContent) : Except StoreError Store :=
  match load file with
  | .ok (m, f) => .ok { store := m, file := f }
  | .error e => .error e

/-- Model of `Store::save`: serialize the whole map and overwrite the file.
Serialization of a `HashMap<String, String>` cannot fail; `fs::write` can,
which `writeOk` models (a failed write leaves the modelled file unchanged —
partial writes are outside the model's scope). -/
def Store.save (st : Store) (writeOk : Bool) : Except StoreError Unit × Store :=
  if writeOk then (.ok (), { st with file := .json st.store })
  else (.error .Io, st)

/-- Model of `Store::set`: insert/overwrite the entry, then save. -/
def Store.set (st : Store) (key value : String) (writeOk : Bool) :
    Except StoreError Unit × Store :=
  ({ st with store := insertKV st.store key value }).save writeOk

/-- Model of `Store::delete`: if the key is present, remove it and save;
otherwise fail with `KeyNotFound` and touch nothing. -/
def Store.delete (st : Store) (key : String) (writeOk : Bool) :
    Except StoreError Unit × Store :=
  if containsKV st.store key then
    ({ st with store := removeKV st.store key }).save writeOk
  else
    (.error (.App (.KeyNotFound key)), st)

/-- Greedy subsequence check: `isSubseqOf pat cand` is true iff the
characters of `pat` occur in `cand` in order, not necessarily contiguously. -/
def isSubseqOf : List Char → List Char → Bool
  | [], _ => true
  | _ :: _, [] => false
  | a :: pat, b :: cand =>
      if a = b then isSubseqOf pat cand else isSubseqOf (a :: pat) cand

/-- Modelled from the spec: `SkimMatcherV2::fuzzy_match(choice, pattern)` of
the external `fuzzy_matcher` crate, which is not part of this repository.
Per the spec (section 4.3) it returns a score exactly when the pattern's
characters occur in the choice in order (subsequence condition), the empty
pattern matching vacuously; the scoring formula is explicitly left
unspecified ("some positive score implies match" is all the source relies
on), so the score here is a placeholder — `Store::find` discards it. -/
def fuzzyMatch (choice : String) (pattern : String) : Option Nat :=
  if isSubseqOf pattern.toList choice.toList then some 0 else none

/-- Model of `Store::find`: iterate over the map and keep exactly the
entries whose description gets a score from the fuzzy matcher. -/
def Store.find (st : Store) (description : String) : List (String × String) :=
  st.store.filter (fun kv => (fuzzyMatch kv.2 description).isSome)

/-- Well-formedness of the map model: keys are unique, as in a `HashMap`. -/
def WFMap (m : List (String × String)) : Prop :=
  (m.map Prod.fst).Nodup

instance (m : List (String × String)) : Decidable (WFMap m) := by
  unfold WFMap; infer_instance

/-- Running a sequence of (successful) `set` calls, in order. -/
def applySets (st : Store) : List (String × String) → Store
  | [] => st
  | (k, v) :: ops => applySets (st.set k v true).2 ops

/-! Lemmas about the association-list map model. -/

theorem lookupKV_insertKV (m : List (String × String)) (k v key : String) :
    lookupKV (insertKV m k v) key = if k = key then some v else lookupKV m key := by
  induction m with
  | nil => simp [insertKV, lookupKV]
  | cons a rest ih =>
      by_cases h : a.1 = k
      · simp only [insertKV, h, if_pos rfl, lookupKV]
        by_cases hk : k = key
        · simp [hk]
        · simp [hk, h, lookupKV]
      · simp only [insertKV, h, if_neg h, lookupKV]
        by_cases ha : a.1 = key
        · have : ¬ k = key := fun hkk => h (hkk ▸ ha)
          simp [ha, this]
        · simp [ha, ih]

theorem lookupKV_removeKV (m : List (String × String)) (k key : String) :
    lookupKV (removeKV m k) key = if key = k then none else lookupKV m key := by
  induction m with
  | nil => simp [removeKV, lookupKV]
  | cons a rest ih =>
      rw [removeKV] at ih ⊢
      by_cases h : a.1 = k
      · rw [List.filter_cons_of_neg (by simp [h]), ih]
        by_cases hk : key = k
        · simp [hk]
        · have hak : ¬ a.1 = key := by
            rw [h]; exact fun hc => hk hc.symm
          simp [hk, lookupKV, hak]
      · rw [List.filter_cons_of_pos (by simp [h])]
        simp only [lookupKV]
        by_cases ha : a.1 = key
        · have hkk : ¬ key = k := fun hkk => h (by rw [ha, hkk])
          simp [ha, hkk]
        · simp [ha, ih]

theorem lookupKV_eq_none_of_not_mem (m : List (String × String)) (key : String)
    (h : key ∉ m.map Prod.fst) : lookupKV m key = none := by
  induction m with
  | nil => rfl
  | cons a rest ih =>
      simp only [List.map_cons, List.mem_cons, not_or] at h
      have hne : ¬ a.1 = key := fun he => h.1 he.symm
      simp only [lookupKV, if_neg hne]
      exact ih h.2

theorem lookupKV_append (xs ys : List (String × String)) (key : String) :
    lookupKV (xs ++ ys) key =
      match lookupKV xs key with
      | some v => some v
      | none => lookupKV ys key := by
  induction xs with
  | nil => simp [lookupKV]
  | cons a rest ih =>
      by_cases h : a.1 = key
      · simp [lookupKV, h]
      · simp [lookupKV, h, ih]

theorem mem_keys_iff_lookupKV (m : List (String × String)) (x : String) :
    x ∈ m.map Prod.fst ↔ (lookupKV m x).isSome := by
  induction m with
  | nil => simp [lookupKV]
  | cons a rest ih =>
      by_cases h : a.1 = x
      · simp [lookupKV, h]
      · have hxa : ¬ x = a.1 := fun he => h he.symm
        simp [lookupKV, h, hxa, ih]

theorem mem_keys_insertKV (m : List (String × String)) (k v x : String) :
    x ∈ (insertKV m k v).map Prod.fst ↔ x ∈ m.map Prod.fst ∨ x = k := by
  rw [mem_keys_iff_lookupKV, mem_keys_iff_lookupKV, lookupKV_insertKV]
  by_cases h : k = x
  · simp [h]
  · have hxk : ¬ x = k := fun he => h he.symm
    simp [h, hxk]

theorem WFMap_insertKV (m : List (String × String)) (k v : String)
    (h : WFMap m) : WFMap (insertKV m k v) := by
  induction m with
  | nil => simp [WFMap, insertKV]
  | cons a rest ih =>
      simp only [WFMap, List.map_cons, List.nodup_cons] at h
      by_cases hk : a.1 = k
      · subst hk
        simpa [WFMap, insertKV] using h
      · have hrest := ih h.2
        simp only [WFMap, insertKV, if_neg hk, List.map_cons, List.nodup_cons]
        refine ⟨fun hmem => ?_, hrest⟩
        rcases (mem_keys_insertKV rest k v a.1).mp hmem with hx | hx
        · exact h.1 hx
        · exact hk hx

theorem WFMap_removeKV (m : List (String × String)) (k : String)
    (h : WFMap m) : WFMap (removeKV m k) := by
  have hsub : List.Sublist ((removeKV m k).map Prod.fst) (m.map Prod.fst) :=
    (List.filter_sublist m).map Prod.fst
  exact h.sublist hsub

theorem lookupKV_foldl_insertKV (l : List (String × String))
    (acc : List (String × String)) (key : String) :
    lookupKV (l.foldl (fun m kv => insertKV m kv.1 kv.2) acc) key =
      match lookupKV l.reverse key with
      | some v => some v
      | none => lookupKV acc key := by
  induction l generalizing acc with
  | nil => simp [lookupKV]
  | cons a l ih =>
      rw [List.foldl_cons, ih, List.reverse_cons, lookupKV_append]
      cases hrev : lookupKV l.reverse key with
      | some v => rfl
      | none =>
          simp only [lookupKV_insertKV]
          by_cases h : a.1 = key
          · simp [lookupKV, h]
          · simp [lookupKV, h]

theorem lookupKV_reverse (m : List (String × String)) (key : String)
    (h : WFMap m) : lookupKV m.reverse key = lookupKV m key := by
  induction m with
  | nil => rfl
  | cons a rest ih =>
      simp only [WFMap, List.map_cons, List.nodup_cons] at h
      rw [List.reverse_cons, lookupKV_append, ih h.2]
      by_cases ha : a.1 = key
      · have : key ∉ rest.map Prod.fst := ha ▸ h.1
        rw [lookupKV_eq_none_of_not_mem rest key this]
        simp [lookupKV, ha]
      · cases hr : lookupKV rest key with
        | some v => simp [lookupKV, ha, hr]
        | none => simp [lookupKV, ha, hr]

theorem WFMap_foldl_insertKV (l : List (String × String))
    (acc : List (String × String)) (h : WFMap acc) :
    WFMap (l.foldl (fun m kv => insertKV m kv.1 kv.2) acc) := by
  induction l generalizing acc with
  | nil => exact h
  | cons a l ih => exact ih _ (WFMap_insertKV acc a.1 a.2 h)

theorem insertKV_insertKV_same (m : List (String × String)) (k v : String) :
    insertKV (insertKV m k v) k v = insertKV m k v := by
  induction m with
  | nil => simp [insertKV]
  | cons a rest ih =>
      by_cases h : a.1 = k
      · simp [insertKV, h]
      · simp [insertKV, h, ih]

/-! The greedy subsequence check agrees with the mathematical subsequence
relation `List.Sublist`. -/

theorem isSubseqOf_iff_sublist (p c : List Char) :
    isSubseqOf p c = true ↔ List.Sublist p c := by
  induction c generalizing p with
  | nil =>
      cases p with
      | nil => simp [isSubseqOf]
      | cons a p =>
          simp only [isSubseqOf, Bool.false_eq_true, false_iff]
          exact fun hcon => by simpa using hcon.length_le
  | cons b c ih =>
      cases p with
      | nil => simp [isSubseqOf, List.nil_sublist]
      | cons a p =>
          by_cases hab : a = b
          · subst hab
            have hred : isSubseqOf (a :: p) (a :: c) = isSubseqOf p c := by
              simp [isSubseqOf]
            rw [hred, ih]
            constructor
            · exact fun h => h.cons₂ a
            · exact fun h => List.cons_sublist_cons.mp h
          · simp only [isSubseqOf, if_neg hab, ih]
            constructor
            · exact fun h => h.cons b
            · intro h
              cases h with
              | cons _ h => exact h
              | cons₂ => exact absurd rfl hab

/-! Computation lemmas for the Store operations. -/

theorem Store.set_eq (st : Store) (k v : String) :
    st.set k v true =
      (.ok (), ⟨insertKV st.store k v, .json (insertKV st.store k v)⟩) := by
  simp [Store.set, Store.save]

theorem Store.set_fail_eq (st : Store) (k v : String) :
    st.set k v false = (.error .Io, ⟨insertKV st.store k v, st.file⟩) := by
  simp [Store.set, Store.save]

theorem applySets_store (ops : List (String × String)) (st : Store) :
    (applySets st ops).store =
      ops.foldl (fun m kv => insertKV m kv.1 kv.2) st.store := by
  induction ops generalizing st with
  | nil => rfl
  | cons a ops ih =>
      cases a with
      | mk k v => rw [applySets, ih, Store.set_eq, List.foldl_cons]

theorem applySets_file_json (ops : List (String × String)) (st : Store)
    (h : ops ≠ []) :
    (applySets st ops).file = .json (applySets st ops).store := by
  induction ops generalizing st with
  | nil => exact absurd rfl h
  | cons a ops ih =>
      cases a with
      | mk k v =>
          rw [applySets]
          cases ops with
          | nil => rw [applySets, Store.set_eq]
          | cons b ops => exact ih _ (by simp)

theorem Store.delete_present_eq (st : Store) (key : String)
    (h : containsKV st.store key = true) :
    st.delete key true =
      (.ok (), ⟨removeKV st.store key, .json (removeKV st.store key)⟩) := by
  simp [Store.delete, h, Store.save]

theorem Store.delete_present_fail_eq (st : Store) (key : String)
    (h : containsKV st.store key = true) :
    st.delete key false = (.error .Io, ⟨removeKV st.store key, st.file⟩) := by
  simp [Store.delete, h, Store.save]

theorem Store.delete_absent_eq (st : Store) (key : String) (w : Bool)
    (h : containsKV st.store key = false) :
    st.delete key w = (.error (.App (.KeyNotFound key)), st) := by
  simp [Store.delete, h]

theorem isSubseqOf_nil (c : List Char) : isSubseqOf [] c = true := by
  cases c <;> rfl

theorem count_eq_one_of_nodup_of_mem {α : Type} [BEq α] [LawfulBEq α]
    {l : List α} {a : α} (hnd : l.Nodup) (ha : a ∈ l) : l.count a = 1 := by
  induction l with
  | nil => cases ha
  | cons b l ih =>
      rw [List.nodup_cons] at hnd
      rcases List.mem_cons.mp ha with rfl | hmem
      · rw [List.count_cons_self, List.count_eq_zero_of_not_mem hnd.1]
      · have hne : a ≠ b := fun he => hnd.1 (he ▸ hmem)
        rw [List.count_cons_of_ne hne, ih hnd.2 hmem]

/-! Theorems for the claims. -/

/-- Claim C1: for every store state and every query q, find returns an entry
if and only if the characters of q occur in that entry's description in order
(as a not-necessarily-contiguous subsequence); an entry whose description
admits no such in-order subsequence of q is never returned. -/
theorem find_mem_iff_subsequence (st : Store) (q k v : String) :
    (k, v) ∈ st.find q ↔
      (k, v) ∈ st.store ∧ List.Sublist q.toList v.toList := by
  rw [Store.find, List.mem_filter]
  by_cases hs : isSubseqOf q.data v.data = true
  · simp [fuzzyMatch, String.toList, hs, (isSubseqOf_iff_sublist _ _).mp hs]
  · have hns : ¬ List.Sublist q.data v.data :=
      fun hc => hs ((isSubseqOf_iff_sublist _ _).mpr hc)
    simp [fuzzyMatch, String.toList, hs, hns]

/-- Claim C6: for every non-empty store, find with the empty query returns
every stored entry exactly once. -/
theorem find_empty_query_returns_all (st : Store) (hwf : WFMap st.store)
    (_hne : st.store ≠ []) :
    st.find ("") = st.store ∧ ∀ kv ∈ st.store, (st.find ("")).count kv = 1 := by
  have hfind : st.find ("") = st.store := by
    rw [Store.find]
    apply List.filter_eq_self.mpr
    intro kv _
    simp [fuzzyMatch, isSubseqOf_nil]
  refine ⟨hfind, fun kv hkv => ?_⟩
  rw [hfind]
  exact count_eq_one_of_nodup_of_mem (List.Nodup.of_map Prod.fst hwf) hkv

/-- Claim C6 witness at a concrete one-entry store. -/
theorem find_empty_query_returns_all_witness :
    WFMap ((⟨[("ls", "list files")], .empty⟩ : Store).store) ∧
    ((⟨[("ls", "list files")], .empty⟩ : Store).store ≠ []) ∧
    ((⟨[("ls", "list files")], .empty⟩ : Store).find ("") =
        (⟨[("ls", "list files")], .empty⟩ : Store).store ∧
      ∀ kv ∈ (⟨[("ls", "list files")], .empty⟩ : Store).store,
        ((⟨[("ls", "list files")], .empty⟩ : Store).find ("")).count kv = 1) :=
  ⟨by decide, by decide,
    find_empty_query_returns_all ⟨[("ls", "list files")], .empty⟩
      (by decide) (by decide)⟩

/-- Claim C10: every pair returned by find is an entry of the current
in-memory mapping, and each stored name appears at most once in the result —
find never fabricates or duplicates entries. -/
theorem find_entries_from_store_no_dup (st : Store) (q : String)
    (hwf : WFMap st.store) :
    (∀ kv ∈ st.find q, kv ∈ st.store) ∧
      ((st.find q).map Prod.fst).Nodup := by
  constructor
  · exact fun kv hkv => (List.mem_filter.mp hkv).1
  · exact hwf.sublist ((List.filter_sublist st.store).map Prod.fst)

/-- Claim C10 witness at a concrete two-entry store. -/
theorem find_entries_from_store_no_dup_witness :
    WFMap ((⟨[("k1", "abc"), ("k2", "xyz")], .empty⟩ : Store).store) ∧
    ((∀ kv ∈ (⟨[("k1", "abc"), ("k2", "xyz")], .empty⟩ : Store).find ("b"),
        kv ∈ (⟨[("k1", "abc"), ("k2", "xyz")], .empty⟩ : Store).store) ∧
      (((⟨[("k1", "abc"), ("k2", "xyz")], .empty⟩ : Store).find ("b")).map
          Prod.fst).Nodup) :=
  ⟨by decide,
    find_entries_from_store_no_dup ⟨[("k1", "abc"), ("k2", "xyz")], .empty⟩
      ("b") (by decide)⟩

/-- Claim C4: delete of a name absent from the mapping fails with
KeyNotFound carrying that name, performs no write, and leaves both the
in-memory mapping and the file unchanged (the resulting state is the input
state). -/
theorem delete_absent_fails_unchanged (st : Store) (key : String) (w : Bool)
    (h : containsKV st.store key = false) :
    st.delete key w = (.error (.App (.KeyNotFound key)), st) := by
  simp [Store.delete, h]

/-- Claim C4 witness at a concrete store that does not contain the key. -/
theorem delete_absent_fails_unchanged_witness :
    containsKV ((⟨[("a", "x")], .json [("a", "x")]⟩ : Store).store) ("b") = false ∧
    (⟨[("a", "x")], .json [("a", "x")]⟩ : Store).delete ("b") true =
      (.error (.App (.KeyNotFound ("b"))), ⟨[("a", "x")], .json [("a", "x")]⟩) :=
  ⟨by decide,
    delete_absent_fails_unchanged ⟨[("a", "x")], .json [("a", "x")]⟩ ("b") true
      (by decide)⟩

/-- Claim C5: a successful delete of a present name removes exactly the
entry for that name — the lookup of every other name is unchanged — and
after return the persisted file no longer contains that name. -/
theorem delete_present_removes_exactly (st : Store) (key : String)
    (h : containsKV st.store key = true) :
    ∃ st', st.delete key true = (.ok (), st') ∧
      lookupKV st'.store key = none ∧
      (∀ k, k ≠ key → lookupKV st'.store k = lookupKV st.store k) ∧
      st'.file = .json st'.store := by
  refine ⟨⟨removeKV st.store key, .json (removeKV st.store key)⟩,
    Store.delete_present_eq st key h, ?_, ?_, rfl⟩
  · simp [lookupKV_removeKV]
  · intro k hk
    simp [lookupKV_removeKV, hk]

/-- Claim C5 witness at a concrete two-entry store. -/
theorem delete_present_removes_exactly_witness :
    containsKV ((⟨[("a", "x"), ("b", "y")], .json [("a", "x"), ("b", "y")]⟩ :
        Store).store) ("a") = true ∧
    (∃ st', (⟨[("a", "x"), ("b", "y")], .json [("a", "x"), ("b", "y")]⟩ :
          Store).delete ("a") true = (.ok (), st') ∧
      lookupKV st'.store ("a") = none ∧
      (∀ k, k ≠ "a" →
        lookupKV st'.store k =
          lookupKV ((⟨[("a", "x"), ("b", "y")],
            .json [("a", "x"), ("b", "y")]⟩ : Store).store) k) ∧
      st'.file = .json st'.store) :=
  ⟨by decide,
    delete_present_removes_exactly
      ⟨[("a", "x"), ("b", "y")], .json [("a", "x"), ("b", "y")]⟩ ("a")
      (by decide)⟩

/-- Claim C7: performing set twice with the same name and description yields
the same in-memory mapping, and the same persisted file content, as
performing it once. -/
theorem set_idempotent (st : Store) (k v : String) :
    ((st.set k v true).2.set k v true).2.store = (st.set k v true).2.store ∧
    ((st.set k v true).2.set k v true).2.file = (st.set k v true).2.file := by
  rw [Store.set_eq st k v, Store.set_eq]
  simp [insertKV_insertKV_same]

/-- Claim C8: constructing a Store from an empty file yields an empty
mapping (the empty content is not parsed); undecodable non-empty content
fails with the Json error variant; decodable content yields the decoded
object, inserted pair by pair. -/
theorem new_decode_behaviour :
    Store.new .empty = .ok ⟨[], .empty⟩ ∧
    Store.new .invalid = .error .Json ∧
    (∀ obj, Store.new (.json obj) = .ok ⟨loadMap obj, .json obj⟩) :=
  ⟨rfl, rfl, fun _ => rfl⟩

/-- Claim C9: set always inserts or overwrites the entry for the name, and
its only possible failure is the one raised by persistence (the I/O error);
it never fails with KeyNotFound or any other application-level error. -/
theorem set_only_persistence_errors (st : Store) (k v : String) (w : Bool) :
    ((st.set k v w).1 = .ok () ∨ (st.set k v w).1 = .error .Io) ∧
    lookupKV (st.set k v w).2.store k = some v := by
  cases w
  · rw [Store.set_fail_eq]
    exact ⟨Or.inr rfl, by simp [lookupKV_insertKV]⟩
  · rw [Store.set_eq]
    exact ⟨Or.inl rfl, by simp [lookupKV_insertKV]⟩

/-- Claim C3: immediately after any successful mutating call — a set, or a
delete — returns, the persisted file's content decodes as an object that
agrees, name by name, with the in-memory mapping. The hypothesis says the
state st' was produced by one successful mutating call on st, whichever of
the two it was. -/
theorem mutation_persists_in_file (st st' : Store) (k v key : String)
    (w₁ w₂ : Bool)
    (h : st.set k v w₁ = (.ok (), st') ∨ st.delete key w₂ = (.ok (), st')) :
    ∃ obj, st'.file = .json obj ∧
      ∀ n, lookupKV obj n = lookupKV st'.store n := by
  rcases h with h₁ | h₂
  · cases w₁ with
    | false =>
        rw [Store.set_fail_eq] at h₁
        have hfst : (Except.error StoreError.Io : Except StoreError Unit) =
            .ok () := congrArg Prod.fst h₁
        exact absurd hfst (by simp)
    | true =>
        rw [Store.set_eq] at h₁
        have hs : st' = ⟨insertKV st.store k v,
            .json (insertKV st.store k v)⟩ := (congrArg Prod.snd h₁).symm
        exact ⟨st'.store, by rw [hs], fun n => rfl⟩
  · by_cases hc : containsKV st.store key = true
    · cases w₂ with
      | false =>
          rw [Store.delete_present_fail_eq st key hc] at h₂
          have hfst : (Except.error StoreError.Io : Except StoreError Unit) =
              .ok () := congrArg Prod.fst h₂
          exact absurd hfst (by simp)
      | true =>
          rw [Store.delete_present_eq st key hc] at h₂
          have hs : st' = ⟨removeKV st.store key,
              .json (removeKV st.store key)⟩ := (congrArg Prod.snd h₂).symm
          exact ⟨st'.store, by rw [hs], fun n => rfl⟩
    · have hc' : containsKV st.store key = false := by simpa using hc
      rw [Store.delete_absent_eq st key w₂ hc'] at h₂
      have hfst : (Except.error (StoreError.App (.KeyNotFound key)) :
          Except StoreError Unit) = .ok () := congrArg Prod.fst h₂
      exact absurd hfst (by simp)

/-- Claim C3 witness: the first-ever successful set, on a store whose
mapping is empty. -/
theorem mutation_persists_in_file_witness :
    ((⟨[], .empty⟩ : Store).set ("a") ("x") true =
        (.ok (), ⟨[("a", "x")], .json [("a", "x")]⟩) ∨
      (⟨[], .empty⟩ : Store).delete ("k") true =
        (.ok (), ⟨[("a", "x")], .json [("a", "x")]⟩)) ∧
    (∃ obj, (⟨[("a", "x")], .json [("a", "x")]⟩ : Store).file = .json obj ∧
      ∀ n, lookupKV obj n =
        lookupKV ((⟨[("a", "x")], .json [("a", "x")]⟩ : Store).store) n) :=
  ⟨Or.inl rfl,
    mutation_persists_in_file ⟨[], .empty⟩ ⟨[("a", "x")], .json [("a", "x")]⟩
      ("a") ("x") ("k") true true (Or.inl rfl)⟩

/-- Claim C2: starting from an empty file, after any finite sequence of
successful set calls, re-constructing a Store from the resulting file yields
an in-memory mapping that agrees, name by name, with the final mapping of
those sets, and that final mapping gives each name the description of the
last set of that name. -/
theorem set_roundtrip_reload (ops : List (String × String)) (st₀ : Store)
    (h₀ : Store.new .empty = .ok st₀) :
    ∃ st', Store.new (applySets st₀ ops).file = .ok st' ∧
      ∀ k, lookupKV st'.store k = lookupKV (applySets st₀ ops).store k ∧
        lookupKV (applySets st₀ ops).store k = lookupKV ops.reverse k := by
  have h₀' : (Except.ok (⟨[], .empty⟩ : Store) : Except StoreError Store) =
      .ok st₀ := h₀
  obtain rfl : (⟨[], .empty⟩ : Store) = st₀ := by injection h₀'
  have hmem : ∀ k,
      lookupKV (applySets (⟨[], .empty⟩ : Store) ops).store k =
        lookupKV ops.reverse k := by
    intro k
    rw [applySets_store, lookupKV_foldl_insertKV]
    cases h : lookupKV ops.reverse k <;> simp [lookupKV]
  by_cases hops : ops = []
  · subst hops
    exact ⟨⟨[], .empty⟩, rfl, fun k => ⟨rfl, rfl⟩⟩
  · have hfile := applySets_file_json ops (⟨[], .empty⟩ : Store) hops
    have hWF : WFMap (applySets (⟨[], .empty⟩ : Store) ops).store := by
      rw [applySets_store]
      exact WFMap_foldl_insertKV ops [] (by simp [WFMap])
    refine ⟨⟨loadMap (applySets (⟨[], .empty⟩ : Store) ops).store,
      .json (applySets (⟨[], .empty⟩ : Store) ops).store⟩, ?_, ?_⟩
    · rw [hfile]; rfl
    · intro k
      refine ⟨?_, hmem k⟩
      rw [loadMap, lookupKV_foldl_insertKV, lookupKV_reverse _ k hWF]
      cases h : lookupKV (applySets (⟨[], .empty⟩ : Store) ops).store k <;>
        simp [lookupKV]

/-- Claim C2 witness: two sets of the same name followed by a reload; the
last write wins. -/
theorem set_roundtrip_reload_witness :
    Store.new .empty = .ok (⟨[], .empty⟩ : Store) ∧
    (∃ st', Store.new
        (applySets (⟨[], .empty⟩ : Store) [("a", "1"), ("a", "2")]).file =
          .ok st' ∧
      ∀ k, lookupKV st'.store k =
          lookupKV (applySets (⟨[], .empty⟩ : Store)
            [("a", "1"), ("a", "2")]).store k ∧
        lookupKV (applySets (⟨[], .empty⟩ : Store)
            [("a", "1"), ("a", "2")]).store k =
          lookupKV ([("a", "1"), ("a", "2")] :
            List (String × String)).reverse k) :=
  ⟨rfl, set_roundtrip_reload [("a", "1"), ("a", "2")] ⟨[], .empty⟩ rfl⟩

end WWT
